import Mathlib

/-!
Verification of `backend/cleanup_console_logs.py`.

The program's one function, `remove_console_logs(content)`, is embedded
shallowly over `List Char` (modelling Python `str`; ASCII whitespace is
modelled, exotic Unicode whitespace is out of scope).  The function has
two passes:

1. `content = re.sub(r'\s*console\.log\([^)]*\);\s*\n', '', content)` —
   modelled by `pySub` below.  The regex engine's behaviour on this
   pattern is deterministic: at each scan position, `\s*` must consume the
   maximal whitespace run (a shorter run would leave a whitespace
   character where the literal `c` is required), `[^)]*` must stop at the
   first `)` which must be followed by `;`, and the trailing `\s*\n`
   consumes the maximal whitespace run up to and including its last
   newline (greedy with backtracking).  `re.sub` removes the leftmost
   match and continues scanning after its end.

2. A line scan (`content.split('\n')`, a cursor loop, `'\n'.join`) —
   modelled by `splitNl`, `scanF`/`scan`, `joinNl`, with the
   parenthesis-count span consumption modelled by `spanRest` and the
   `re.match(r'\s*console\.log\(`.*\);\s*$', line)` test modelled by
   `matchBacktick` (on `'\n'`-free lines, as produced by the split; `.`
   does not match a newline, `$` accepts a trailing whitespace run).

Loops are embedded with explicit fuel so that every definition is
structurally recursive and computable by the kernel; the fuel supplied by
the wrappers (`pySub`, `scan`) is always sufficient, which is itself one
of the verified claims.
-/

namespace Cleanup

/-- Python whitespace (`\s`, `str.strip`), restricted to ASCII. -/
def isPySpace (c : Char) : Bool :=
  c = ' ' || c = '\t' || c = '\n' || c = '\r' || c = '\x0b' || c = '\x0c'

/-- `p` is a leading segment of `l` (Python `str.startswith`, used to
decide where regex literals match). -/
def isPre : List Char → List Char → Bool
  | [], _ => true
  | _ :: _, [] => false
  | p :: ps, c :: cs => if p = c then isPre ps cs else false

/-- `p` occurs as a contiguous substring of `l` (Python `in`). -/
def hasSub (p : List Char) : List Char → Bool
  | [] => isPre p []
  | c :: rest => isPre p (c :: rest) || hasSub p rest

/-- Remove the trailing whitespace run (second half of `str.strip`). -/
def dropTrail (l : List Char) : List Char :=
  (l.reverse.dropWhile isPySpace).reverse

/-- Python `str.strip()`. -/
def stripL (l : List Char) : List Char :=
  dropTrail (l.dropWhile isPySpace)

/-- The literal `console.log(` (12 characters). -/
def logPat : List Char := "console.log(".toList

/-- The literal `console.log(` followed by a backtick (13 characters). -/
def btPat : List Char := "console.log(`".toList

/-- Python `content.split('\n')`: every newline separates; the result is
never empty. -/
def splitNl : List Char → List (List Char)
  | [] => [[]]
  | c :: r =>
    if c = '\n' then [] :: splitNl r
    else
      match splitNl r with
      | [] => [[c]]
      | h :: t => (c :: h) :: t

/-- Python `'\n'.join(parts)`. -/
def joinNl : List (List Char) → List Char
  | [] => []
  | [l] => l
  | l :: m :: t => l ++ '\n' :: joinNl (m :: t)

/-- `line.count('(') - line.count(')')` as an integer. -/
def lineDelta (l : List Char) : Int :=
  (l.count '(' : Int) - (l.count ')' : Int)

/-- The prefix of a whitespace run up to and including its last newline
(what `\s*\n` consumes after `);`); empty when the run has no newline. -/
def uptoLastNl (ws : List Char) : List Char :=
  (ws.reverse.dropWhile (fun c => ¬ (c = '\n'))).reverse

/-- After `\s*console.log(` has matched (consuming `pre + 12` characters),
try to match `[^)]*);\s*\n` on the remainder `r2`; returns the total match
length.  The first `)` of `r2` must be followed by `;`, and the trailing
whitespace run must contain a newline. -/
def tryTail (pre : Nat) (r2 : List Char) : Option Nat :=
  match r2.dropWhile (fun c => ¬ (c = ')')) with
  | ')' :: ';' :: r4 =>
    if (uptoLastNl (r4.takeWhile isPySpace)).length = 0 then none
    else
      some (pre + 12 + (r2.takeWhile (fun c => ¬ (c = ')'))).length + 2 +
        (uptoLastNl (r4.takeWhile isPySpace)).length)
  | _ => none

/-- Attempt of the pattern `\s*console\.log\([^)]*\);\s*\n` at the start
of `l`; returns the match length when the attempt succeeds. -/
def tryMatchAt (l : List Char) : Option Nat :=
  if isPre logPat (l.dropWhile isPySpace) then
    tryTail (l.takeWhile isPySpace).length ((l.dropWhile isPySpace).drop 12)
  else none

/-- `re.sub(pattern, '', content)`: scan left to right, drop each leftmost
match, continue after its end.  Fuel-driven; each step consumes at least
one character, so `l.length` fuel suffices (see `pySub`). -/
def pySubF : Nat → List Char → List Char
  | 0, l => l
  | fuel + 1, l =>
    match tryMatchAt l with
    | some n => pySubF fuel (l.drop n)
    | none =>
      match l with
      | [] => []
      | c :: r => c :: pySubF fuel r

/-- The first pass of `remove_console_logs`. -/
def pySub (l : List Char) : List Char := pySubF l.length l

/-- Does a decomposition `mid ++ ');' ++ trailing-whitespace` of the line
remainder exist, with `mid` newline-free?  (The `.*\);\s*$` part of the
standalone pattern.) -/
def tailOk : List Char → Bool
  | [] => false
  | c :: rest =>
    (if c = ')' then
      match rest with
      | ';' :: r2 => r2.all isPySpace
      | _ => false
    else false)
    || (if c = '\n' then false else tailOk rest)

/-- Truthiness of `re.match(r'\s*console\.log\(`.*\);\s*$', line)`. -/
def matchBacktick (t : List Char) : Bool :=
  if isPre btPat (t.dropWhile isPySpace) then
    tailOk ((t.dropWhile isPySpace).drop 13)
  else false

/-- The inner `while paren_count > 0 and i + 1 < len(lines)` loop, in list
form: consume continuation lines while the running count stays positive;
return the lines after the consumed span. -/
def spanRest : Int → List (List Char) → List (List Char)
  | _, [] => []
  | pc, l :: rs => if 0 < pc then spanRest (pc + lineDelta l) rs else l :: rs

/-- The `while i < len(lines)` cursor loop, in list form with fuel.  A
line whose stripped copy contains `console.log(` starts a span: the span
(the line plus continuation lines per `spanRest`) is dropped.  Otherwise a
line matching the standalone backtick pattern is dropped.  Otherwise the
original line is kept. -/
def scanF : Nat → List (List Char) → List (List Char)
  | 0, ls => ls
  | _ + 1, [] => []
  | fuel + 1, l :: rest =>
    if hasSub logPat (stripL l) then
      scanF fuel (spanRest (lineDelta (stripL l)) rest)
    else if matchBacktick (stripL l) then
      scanF fuel rest
    else
      l :: scanF fuel rest

/-- The line-scan pass; `ls.length` fuel always suffices. -/
def scan (ls : List (List Char)) : List (List Char) := scanF ls.length ls

/-- `remove_console_logs(content)`: the regex pass, then the line scan of
the substituted text, rejoined with newlines. -/
def remove_console_logs (content : List Char) : List Char :=
  joinNl (scan (splitNl (pySub content)))

/-- The variant with the initial regex-substitution pass omitted: the line
scan applied directly to the original content (what the spec asserts the
whole function to be equivalent to). -/
def scanOnly (content : List Char) : List Char :=
  joinNl (scan (splitNl content))

/-- The line scan with the standalone-backtick `elif` branch deleted. -/
def scanNoElifF : Nat → List (List Char) → List (List Char)
  | 0, ls => ls
  | _ + 1, [] => []
  | fuel + 1, l :: rest =>
    if hasSub logPat (stripL l) then
      scanNoElifF fuel (spanRest (lineDelta (stripL l)) rest)
    else
      l :: scanNoElifF fuel rest

/-- `remove_console_logs` with the `elif` branch of the line scan deleted. -/
def removeNoElif (content : List Char) : List Char :=
  joinNl (scanNoElifF (splitNl (pySub content)).length (splitNl (pySub content)))

/-- Index-based form of the inner continuation-line loop, exactly as in
the source: `while paren_count > 0 and i + 1 < len(lines): i += 1; ...`;
returns the final cursor. -/
def innerLoopF : Nat → Int → Nat → List (List Char) → Nat
  | 0, _, i, _ => i
  | fuel + 1, pc, i, lines =>
    if 0 < pc ∧ i + 1 < lines.length then
      innerLoopF fuel (pc + lineDelta (lines.getD (i + 1) [])) (i + 1) lines
    else i

/-- Index-based form of the outer `while i < len(lines)` loop with an
explicit iteration budget (fuel): the cursor `i` strictly increases on
every path through the loop body. -/
def scanIdxF : Nat → Nat → List (List Char) → List (List Char)
  | 0, _, _ => []
  | fuel + 1, i, lines =>
    if i < lines.length then
      if hasSub logPat (stripL (lines.getD i [])) then
        scanIdxF fuel (innerLoopF fuel (lineDelta (stripL (lines.getD i []))) i lines + 1) lines
      else if matchBacktick (stripL (lines.getD i [])) then
        scanIdxF fuel (i + 1) lines
      else
        lines.getD i [] :: scanIdxF fuel (i + 1) lines
    else []

end Cleanup

namespace Cleanup

/-! ### Substring theory for `isPre` and `hasSub` -/

theorem isPre_iff (p l : List Char) : isPre p l = true ↔ ∃ t, l = p ++ t := by
  induction p generalizing l with
  | nil => simp [isPre]
  | cons c ps ih =>
    cases l with
    | nil => simp [isPre]
    | cons d r =>
      by_cases h : c = d
      · subst h
        rw [show isPre (c :: ps) (c :: r) = isPre ps r by simp [isPre], ih]
        constructor
        · rintro ⟨t, rfl⟩; exact ⟨t, rfl⟩
        · rintro ⟨t, ht⟩
          exact ⟨t, by simpa using congrArg List.tail ht⟩
      · simp [isPre, h, Ne.symm h]

theorem hasSub_iff (p l : List Char) : hasSub p l = true ↔ ∃ a b, l = a ++ p ++ b := by
  induction l with
  | nil =>
    simp only [hasSub, isPre_iff]
    constructor
    · rintro ⟨t, ht⟩
      rcases List.append_eq_nil.mp ht.symm with ⟨hp, htn⟩
      exact ⟨[], [], by simp [hp]⟩
    · rintro ⟨a, b, hab⟩
      rcases List.append_eq_nil.mp (List.append_eq_nil.mp hab.symm).1 with ⟨-, hp⟩
      exact ⟨[], by simp [hp]⟩
  | cons c r ih =>
    simp only [hasSub, Bool.or_eq_true, isPre_iff, ih]
    constructor
    · rintro (⟨t, ht⟩ | ⟨a, b, hab⟩)
      · exact ⟨[], t, by simp [ht]⟩
      · exact ⟨c :: a, b, by simp [hab]⟩
    · rintro ⟨a, b, hab⟩
      cases a with
      | nil => exact Or.inl ⟨b, by simpa using hab⟩
      | cons a0 a1 =>
        rw [List.cons_append, List.cons_append] at hab
        obtain ⟨-, h2⟩ := List.cons.injEq .. ▸ hab
        exact Or.inr ⟨a1, b, by simpa using congrArg List.tail hab⟩

theorem isPre_append_left (x y l : List Char) (h : isPre (x ++ y) l = true) :
    isPre x l = true := by
  induction x generalizing l with
  | nil => simp [isPre]
  | cons c ps ih =>
    cases l with
    | nil => simp [isPre] at h
    | cons d r =>
      by_cases hc : c = d
      · subst hc
        simp only [List.cons_append, isPre, if_pos rfl] at h ⊢
        exact ih r h
      · simp [isPre, hc] at h

theorem hasSub_of_isPre_dropWhile (p l : List Char) (f : Char → Bool)
    (h : isPre p (l.dropWhile f) = true) : hasSub p l = true := by
  induction l with
  | nil => simpa [hasSub, List.dropWhile] using h
  | cons c r ih =>
    by_cases hf : f c
    · rw [List.dropWhile_cons, if_pos hf] at h
      simp only [hasSub, Bool.or_eq_true]
      exact Or.inr (ih h)
    · rw [List.dropWhile_cons, if_neg hf] at h
      simp only [hasSub, Bool.or_eq_true]
      exact Or.inl h

theorem isPre_sep (sep : Char) (y : List Char) :
    ∀ (p x : List Char), sep ∉ p → isPre p (x ++ sep :: y) = isPre p x := by
  intro p
  induction p with
  | nil => intro x _; simp [isPre]
  | cons c ps ih =>
    intro x hs
    cases x with
    | nil =>
      have hc : ¬ c = sep := fun h => hs (h ▸ List.mem_cons_self c ps)
      simp [isPre, hc]
    | cons d r =>
      by_cases hc : c = d
      · subst hc
        simp only [List.cons_append, isPre, if_pos rfl]
        exact ih r (fun h => hs (List.mem_cons_of_mem c h))
      · simp [isPre, hc]

theorem hasSub_sep (p x y : List Char) (sep : Char) (hs : sep ∉ p) :
    hasSub p (x ++ sep :: y) = (hasSub p x || hasSub p y) := by
  induction x with
  | nil =>
    rw [List.nil_append]
    show (isPre p (sep :: y) || hasSub p y) = (isPre p [] || hasSub p y)
    rw [show isPre p (sep :: y) = isPre p ([] ++ sep :: y) from rfl, isPre_sep sep y p [] hs]
  | cons c r ih =>
    rw [List.cons_append]
    show (isPre p (c :: r ++ sep :: y) || hasSub p (r ++ sep :: y)) = _
    rw [show c :: r ++ sep :: y = (c :: r) ++ sep :: y from rfl,
      isPre_sep sep y p (c :: r) hs, ih]
    show _ = (isPre p (c :: r) || hasSub p r || hasSub p y)
    rw [Bool.or_assoc]

theorem hasSub_joinNl (p : List Char) (M : List (List Char)) (hnl : '\n' ∉ p)
    (hne : isPre p [] = false) : hasSub p (joinNl M) = M.any (fun l => hasSub p l) := by
  induction M with
  | nil => simp [joinNl, hasSub, hne]
  | cons x M ih =>
    cases M with
    | nil =>
      simp only [joinNl, List.any_cons, List.any_nil, Bool.or_false]
    | cons y t =>
      rw [show joinNl (x :: y :: t) = x ++ '\n' :: joinNl (y :: t) from rfl,
        hasSub_sep p x (joinNl (y :: t)) '\n' hnl, ih]
      simp [List.any_cons]

/-! ### Interaction of `hasSub` with `str.strip` -/

theorem dropWhile_append_eq (f : Char → Bool) (x z : List Char) :
    (x ++ z).dropWhile f =
      if x.all f then z.dropWhile f else x.dropWhile f ++ z := by
  induction x with
  | nil => simp
  | cons c r ih =>
    by_cases hf : f c = true
    · simp only [List.cons_append, List.dropWhile_cons, hf, if_true, ih,
        List.all_cons, Bool.true_and]
    · have hf' : f c = false := by simpa using hf
      simp [List.dropWhile_cons, hf', List.all_cons]

theorem hasSub_dropWhile_of_head (p l : List Char) (hne : p ≠ [])
    (hh : isPySpace (p.headD ' ') = false) (h : hasSub p l = true) :
    hasSub p (l.dropWhile isPySpace) = true := by
  induction l with
  | nil => simpa [List.dropWhile] using h
  | cons c r ih =>
    by_cases hf : isPySpace c = true
    · rw [List.dropWhile_cons, if_pos hf]
      apply ih
      simp only [hasSub, Bool.or_eq_true] at h
      rcases h with hpre | hsub
      · cases p with
        | nil => exact absurd rfl hne
        | cons p0 p1 =>
          by_cases hp : p0 = c
          · rw [List.headD_cons, hp] at hh
            rw [hh] at hf
            exact absurd hf (by simp)
          · rw [isPre, if_neg hp] at hpre
            exact absurd hpre (by simp)
      · exact hsub
    · rw [List.dropWhile_cons, if_neg hf]
      exact h

theorem hasSub_dropTrail (p m : List Char) (hne : p.reverse ≠ [])
    (hl : isPySpace (p.reverse.headD ' ') = false) (h : hasSub p m = true) :
    hasSub p (dropTrail m) = true := by
  obtain ⟨a, b, rfl⟩ := (hasSub_iff p m).mp h
  obtain ⟨c, p1, hrev⟩ : ∃ c p1, p.reverse = c :: p1 := by
    cases hp : p.reverse with
    | nil => exact absurd hp hne
    | cons c p1 => exact ⟨c, p1, rfl⟩
  rw [hrev, List.headD_cons] at hl
  unfold dropTrail
  have hshape : (a ++ p ++ b).reverse = b.reverse ++ (p.reverse ++ a.reverse) := by
    simp [List.reverse_append, List.append_assoc]
  rw [hshape, dropWhile_append_eq]
  by_cases hb : b.reverse.all isPySpace = true
  · rw [if_pos hb, hrev, List.cons_append, List.dropWhile_cons, if_neg (by simp [hl])]
    rw [← List.cons_append, ← hrev]
    rw [List.reverse_append, List.reverse_reverse, List.reverse_reverse]
    exact (hasSub_iff p (a ++ p)).mpr ⟨a, [], by simp⟩
  · rw [if_neg hb]
    rw [List.reverse_append, List.reverse_append, List.reverse_reverse,
      List.reverse_reverse]
    exact (hasSub_iff p _).mpr ⟨a, (b.reverse.dropWhile isPySpace).reverse, by
      simp [List.append_assoc]⟩

theorem hasSub_stripL_of (p l : List Char) (hne : p ≠ [])
    (hh : isPySpace (p.headD ' ') = false) (hlne : p.reverse ≠ [])
    (hl : isPySpace (p.reverse.headD ' ') = false) (h : hasSub p l = true) :
    hasSub p (stripL l) = true :=
  hasSub_dropTrail p _ hlne hl (hasSub_dropWhile_of_head p l hne hh h)

theorem hasSub_stripL_mono (p l : List Char) (h : hasSub p (stripL l) = true) :
    hasSub p l = true := by
  obtain ⟨a, b, hab⟩ := (hasSub_iff p (stripL l)).mp h
  have hdec : l.dropWhile isPySpace =
      stripL l ++ ((l.dropWhile isPySpace).reverse.takeWhile isPySpace).reverse := by
    unfold stripL dropTrail
    rw [← List.reverse_append, List.takeWhile_append_dropWhile, List.reverse_reverse]
  have hfull : l = l.takeWhile isPySpace ++ l.dropWhile isPySpace :=
    (List.takeWhile_append_dropWhile isPySpace l).symm
  refine (hasSub_iff p l).mpr ⟨l.takeWhile isPySpace ++ a,
    b ++ ((l.dropWhile isPySpace).reverse.takeWhile isPySpace).reverse, ?_⟩
  conv_lhs => rw [hfull, hdec, hab]
  simp [List.append_assoc]

/-! ### `split('\n')` and `'\n'.join` -/

theorem splitNl_ne_nil (l : List Char) : splitNl l ≠ [] := by
  cases l with
  | nil => simp [splitNl]
  | cons c r =>
    by_cases h : c = '\n'
    · simp [splitNl, h]
    · simp only [splitNl, if_neg h]
      split <;> simp

theorem splitNl_cons_ne_nl (c : Char) (r : List Char) (h : ¬ c = '\n') (x : List Char)
    (t : List (List Char)) (hx : splitNl r = x :: t) :
    splitNl (c :: r) = (c :: x) :: t := by
  simp only [splitNl, if_neg h, hx]

theorem joinNl_splitNl (l : List Char) : joinNl (splitNl l) = l := by
  induction l with
  | nil => rfl
  | cons c r ih =>
    obtain ⟨x, t, hx⟩ : ∃ x t, splitNl r = x :: t := by
      cases hs : splitNl r with
      | nil => exact absurd hs (splitNl_ne_nil r)
      | cons x t => exact ⟨x, t, rfl⟩
    by_cases h : c = '\n'
    · subst h
      rw [show splitNl ('\n' :: r) = [] :: splitNl r by simp [splitNl], hx]
      rw [show joinNl ([] :: x :: t) = [] ++ '\n' :: joinNl (x :: t) from rfl]
      rw [← hx, ih]
      simp
    · rw [splitNl_cons_ne_nl c r h x t hx]
      cases t with
      | nil =>
        have hxr : x = r := by
          have := ih
          rw [hx] at this
          simpa [joinNl] using this
        simp [joinNl, hxr]
      | cons y t2 =>
        rw [show joinNl ((c :: x) :: y :: t2) = (c :: x) ++ '\n' :: joinNl (y :: t2)
          from rfl]
        have := ih
        rw [hx] at this
        rw [show joinNl (x :: y :: t2) = x ++ '\n' :: joinNl (y :: t2) from rfl] at this
        rw [List.cons_append, this]

theorem mem_splitNl_no_nl (l : List Char) : ∀ x ∈ splitNl l, '\n' ∉ x := by
  induction l with
  | nil =>
    intro x hx
    simp [splitNl] at hx
    simp [hx]
  | cons c r ih =>
    obtain ⟨y, t, hy⟩ : ∃ y t, splitNl r = y :: t := by
      cases hs : splitNl r with
      | nil => exact absurd hs (splitNl_ne_nil r)
      | cons y t => exact ⟨y, t, rfl⟩
    by_cases h : c = '\n'
    · subst h
      intro x hx
      rw [show splitNl ('\n' :: r) = [] :: splitNl r by simp [splitNl]] at hx
      rcases List.mem_cons.mp hx with rfl | hx2
      · simp
      · exact ih x hx2
    · intro x hx
      rw [splitNl_cons_ne_nl c r h y t hy] at hx
      rcases List.mem_cons.mp hx with rfl | hx2
      · intro hmem
        rcases List.mem_cons.mp hmem with hc | hmem2
        · exact h hc.symm
        · exact ih y (hy ▸ List.mem_cons_self y t) hmem2
      · exact ih x (hy ▸ List.mem_cons_of_mem y hx2)

theorem splitNl_of_no_nl (x : List Char) (h : '\n' ∉ x) : splitNl x = [x] := by
  induction x with
  | nil => rfl
  | cons c r ih =>
    have hc : ¬ c = '\n' := fun hh => h (by rw [hh]; exact List.mem_cons_self '\n' r)
    have hr : '\n' ∉ r := fun hh => h (List.mem_cons_of_mem c hh)
    rw [splitNl_cons_ne_nl c r hc r [] (ih hr)]

theorem splitNl_append_nl (x z : List Char) (h : '\n' ∉ x) :
    splitNl (x ++ '\n' :: z) = x :: splitNl z := by
  induction x with
  | nil => simp [splitNl]
  | cons c r ih =>
    have hc : ¬ c = '\n' := fun hh => h (by rw [hh]; exact List.mem_cons_self '\n' r)
    have hr : '\n' ∉ r := fun hh => h (List.mem_cons_of_mem c hh)
    rw [List.cons_append]
    obtain ⟨y, t, hy⟩ : ∃ y t, splitNl z = y :: t := by
      cases hs : splitNl z with
      | nil => exact absurd hs (splitNl_ne_nil z)
      | cons y t => exact ⟨y, t, rfl⟩
    rw [hy] at ih
    rw [splitNl_cons_ne_nl c (r ++ '\n' :: z) hc r (y :: t) (ih hr), hy]

theorem splitNl_joinNl (M : List (List Char)) (hM : ∀ x ∈ M, '\n' ∉ x)
    (hne : M ≠ []) : splitNl (joinNl M) = M := by
  induction M with
  | nil => exact absurd rfl hne
  | cons x M ih =>
    cases M with
    | nil =>
      rw [show joinNl [x] = x from rfl]
      exact splitNl_of_no_nl x (hM x (List.mem_cons_self x []))
    | cons y t =>
      rw [show joinNl (x :: y :: t) = x ++ '\n' :: joinNl (y :: t) from rfl]
      rw [splitNl_append_nl _ _ (hM x (List.mem_cons_self x (y :: t)))]
      rw [ih (fun z hz => hM z (List.mem_cons_of_mem x hz)) (by simp)]

/-! ### The regex pass fixes inputs with no `console.log(` -/

theorem tryMatchAt_hasSub (l : List Char) (n : Nat) (h : tryMatchAt l = some n) :
    hasSub logPat l = true := by
  by_cases hp : isPre logPat (l.dropWhile isPySpace) = true
  · exact hasSub_of_isPre_dropWhile logPat l isPySpace hp
  · rw [tryMatchAt, if_neg hp] at h
    exact absurd h (by simp)

theorem pySubF_fix (l : List Char) (h : hasSub logPat l = false) :
    ∀ fuel, pySubF fuel l = l := by
  induction l with
  | nil =>
    intro fuel
    cases fuel with
    | zero => rfl
    | succ f =>
      have h0 : tryMatchAt [] = none := by decide
      simp [pySubF, h0]
  | cons c r ih =>
    intro fuel
    cases fuel with
    | zero => rfl
    | succ f =>
      have hnone : tryMatchAt (c :: r) = none := by
        cases htm : tryMatchAt (c :: r) with
        | none => rfl
        | some n => exact absurd (tryMatchAt_hasSub _ n htm) (by simp [h])
      have hr : hasSub logPat r = false := by
        simp only [hasSub, Bool.or_eq_false_iff] at h
        exact h.2
      simp only [pySubF, hnone]
      rw [ih hr f]

theorem pySub_fix (l : List Char) (h : hasSub logPat l = false) : pySub l = l :=
  pySubF_fix l h l.length

theorem matchBacktick_hasSub (t : List Char) (h : matchBacktick t = true) :
    hasSub logPat t = true := by
  by_cases hp : isPre btPat (t.dropWhile isPySpace) = true
  · have h12 : isPre logPat (t.dropWhile isPySpace) = true := by
      apply isPre_append_left logPat [Char.ofNat 96]
      rw [show logPat ++ [Char.ofNat 96] = btPat by decide]
      exact hp
    exact hasSub_of_isPre_dropWhile _ _ _ h12
  · rw [matchBacktick, if_neg hp] at h
    exact absurd h (by simp)

/-! ### Properties of the line scan -/

theorem scanF_nil : ∀ fuel, scanF fuel [] = [] := by
  intro fuel
  cases fuel <;> rfl

theorem spanRest_length_le (pc : Int) (rs : List (List Char)) :
    (spanRest pc rs).length ≤ rs.length := by
  induction rs generalizing pc with
  | nil => simp [spanRest]
  | cons l rs ih =>
    by_cases h : 0 < pc
    · simp only [spanRest, if_pos h]
      exact le_trans (ih _) (Nat.le_succ _)
    · simp only [spanRest, if_neg h]
      exact Nat.le_refl _

theorem spanRest_sublist (pc : Int) (rs : List (List Char)) :
    (spanRest pc rs).Sublist rs := by
  induction rs generalizing pc with
  | nil => simp [spanRest]
  | cons l rs ih =>
    by_cases h : 0 < pc
    · simp only [spanRest, if_pos h]
      exact (ih _).trans (List.sublist_cons_self l rs)
    · simp only [spanRest, if_neg h]
      exact List.Sublist.refl _

theorem scanF_sublist : ∀ (fuel : Nat) (ls : List (List Char)),
    (scanF fuel ls).Sublist ls := by
  intro fuel
  induction fuel with
  | zero => intro ls; exact List.Sublist.refl ls
  | succ f ih =>
    intro ls
    cases ls with
    | nil => simp [scanF]
    | cons l rest =>
      simp only [scanF]
      by_cases h1 : hasSub logPat (stripL l) = true
      · rw [if_pos h1]
        exact ((ih _).trans (spanRest_sublist _ _)).trans (List.sublist_cons_self l rest)
      · rw [if_neg h1]
        by_cases h2 : matchBacktick (stripL l) = true
        · rw [if_pos h2]
          exact (ih rest).trans (List.sublist_cons_self l rest)
        · rw [if_neg h2]
          exact List.Sublist.cons₂ l (ih rest)

theorem scanF_mem (fuel : Nat) (ls : List (List Char)) (x : List Char)
    (h : x ∈ scanF fuel ls) : x ∈ ls :=
  (scanF_sublist fuel ls).subset h

theorem scanF_kept : ∀ (fuel : Nat) (ls : List (List Char)), ls.length ≤ fuel →
    ∀ x ∈ scanF fuel ls, hasSub logPat (stripL x) = false := by
  intro fuel
  induction fuel with
  | zero =>
    intro ls hls x hx
    have hnil : ls = [] := List.length_eq_zero.mp (Nat.le_zero.mp hls)
    subst hnil
    simp [scanF] at hx
  | succ f ih =>
    intro ls hls x hx
    cases ls with
    | nil => simp [scanF] at hx
    | cons l rest =>
      simp only [scanF] at hx
      by_cases h1 : hasSub logPat (stripL l) = true
      · rw [if_pos h1] at hx
        exact ih _ (le_trans (spanRest_length_le _ _) (Nat.le_of_succ_le_succ hls)) x hx
      · rw [if_neg h1] at hx
        by_cases h2 : matchBacktick (stripL l) = true
        · rw [if_pos h2] at hx
          exact ih rest (Nat.le_of_succ_le_succ hls) x hx
        · rw [if_neg h2] at hx
          rcases List.mem_cons.mp hx with rfl | hx2
          · simpa using h1
          · exact ih rest (Nat.le_of_succ_le_succ hls) x hx2

theorem scanF_fix : ∀ (M : List (List Char)),
    (∀ x ∈ M, hasSub logPat (stripL x) = false) → ∀ fuel, scanF fuel M = M := by
  intro M
  induction M with
  | nil => intro _ fuel; exact scanF_nil fuel
  | cons l rest ih =>
    intro h fuel
    cases fuel with
    | zero => rfl
    | succ f =>
      have h1 : hasSub logPat (stripL l) = false := h l (List.mem_cons_self l rest)
      have h2 : matchBacktick (stripL l) = false := by
        cases hm : matchBacktick (stripL l) with
        | false => rfl
        | true =>
          have hds := matchBacktick_hasSub _ hm
          rw [h1] at hds
          exact absurd hds (by simp)
      simp only [scanF]
      rw [if_neg (by simp [h1]), if_neg (by simp [h2])]
      rw [ih (fun x hx => h x (List.mem_cons_of_mem l hx)) f]

theorem scanF_stable : ∀ (f1 : Nat) (M : List (List Char)) (f2 : Nat),
    M.length ≤ f1 → M.length ≤ f2 → scanF f1 M = scanF f2 M := by
  intro f1
  induction f1 with
  | zero =>
    intro M f2 h1 _
    have hnil : M = [] := List.length_eq_zero.mp (Nat.le_zero.mp h1)
    subst hnil
    exact (scanF_nil 0).trans (scanF_nil f2).symm
  | succ f ih =>
    intro M f2 h1 h2
    cases M with
    | nil => exact (scanF_nil _).trans (scanF_nil _).symm
    | cons l rest =>
      cases f2 with
      | zero => exact absurd h2 (by simp)
      | succ g =>
        simp only [scanF]
        have hr : rest.length ≤ f := Nat.le_of_succ_le_succ h1
        have hg : rest.length ≤ g := Nat.le_of_succ_le_succ h2
        by_cases hc1 : hasSub logPat (stripL l) = true
        · rw [if_pos hc1, if_pos hc1]
          exact ih _ g (le_trans (spanRest_length_le _ _) hr)
            (le_trans (spanRest_length_le _ _) hg)
        · rw [if_neg hc1, if_neg hc1]
          by_cases hc2 : matchBacktick (stripL l) = true
          · rw [if_pos hc2, if_pos hc2]
            exact ih rest g hr hg
          · rw [if_neg hc2, if_neg hc2]
            rw [ih rest g hr hg]

/-! ### The index-based loop computes the list-based scan -/

theorem spanRest_of_nonpos (pc : Int) (X : List (List Char)) (h : ¬ 0 < pc) :
    spanRest pc X = X := by
  cases X with
  | nil => rfl
  | cons l rs => simp only [spanRest, if_neg h]

theorem innerLoopF_ge : ∀ (fuel : Nat) (pc : Int) (i : Nat) (lines : List (List Char)),
    i ≤ innerLoopF fuel pc i lines := by
  intro fuel
  induction fuel with
  | zero => intro pc i lines; exact Nat.le_refl i
  | succ f ih =>
    intro pc i lines
    simp only [innerLoopF]
    by_cases h : 0 < pc ∧ i + 1 < lines.length
    · rw [if_pos h]
      exact le_trans (Nat.le_succ i) (ih _ _ _)
    · rw [if_neg h]

theorem getD_drop_cons (lines : List (List Char)) (i : Nat) (h : i < lines.length) :
    lines.drop i = lines.getD i [] :: lines.drop (i + 1) := by
  rw [List.drop_eq_getElem_cons h]
  congr 1
  simp [List.getD_eq_getElem?_getD, List.getElem?_eq_getElem h]

theorem innerLoopF_corr :
    ∀ (fuel : Nat) (pc : Int) (i : Nat) (lines : List (List Char)),
    lines.length - (i + 1) ≤ fuel →
    lines.drop (innerLoopF fuel pc i lines + 1) = spanRest pc (lines.drop (i + 1)) := by
  intro fuel
  induction fuel with
  | zero =>
    intro pc i lines h
    have hd : lines.drop (i + 1) = [] := List.drop_eq_nil_of_le (by omega)
    simp [innerLoopF, hd, spanRest]
  | succ f ih =>
    intro pc i lines h
    simp only [innerLoopF]
    by_cases hc : 0 < pc ∧ i + 1 < lines.length
    · rw [if_pos hc]
      rw [ih _ _ _ (by omega)]
      rw [getD_drop_cons lines (i + 1) hc.2]
      rw [show spanRest pc (lines.getD (i + 1) [] :: lines.drop (i + 1 + 1)) =
        spanRest (pc + lineDelta (lines.getD (i + 1) [])) (lines.drop (i + 1 + 1)) by
        simp only [spanRest, if_pos hc.1]]
    · rw [if_neg hc]
      rcases Classical.em (0 < pc) with hpc | hpc
      · have hge : ¬ i + 1 < lines.length := fun hl => hc ⟨hpc, hl⟩
        have hd : lines.drop (i + 1) = [] := List.drop_eq_nil_of_le (by omega)
        rw [hd]
        rfl
      · rw [spanRest_of_nonpos _ _ hpc]

theorem scanIdxF_corr : ∀ (fuel i : Nat) (lines : List (List Char)),
    lines.length - i ≤ fuel →
    scanIdxF fuel i lines = scanF (lines.length - i) (lines.drop i) := by
  intro fuel
  induction fuel with
  | zero =>
    intro i lines h
    have hd : lines.drop i = [] := List.drop_eq_nil_of_le (by omega)
    rw [show scanIdxF 0 i lines = [] from rfl, hd, scanF_nil]
  | succ f ih =>
    intro i lines h
    by_cases hi : i < lines.length
    · have hlen : lines.length - i = (lines.length - (i + 1)) + 1 := by omega
      rw [hlen, getD_drop_cons lines i hi]
      simp only [scanIdxF, scanF]
      rw [if_pos hi]
      by_cases h1 : hasSub logPat (stripL (lines.getD i [])) = true
      · rw [if_pos h1, if_pos h1]
        have hj : i ≤ innerLoopF f (lineDelta (stripL (lines.getD i []))) i lines :=
          innerLoopF_ge f _ i lines
        have hcorr := innerLoopF_corr f (lineDelta (stripL (lines.getD i []))) i lines
          (by omega)
        rw [← hcorr]
        rw [ih _ lines (by omega)]
        apply scanF_stable
        · rw [List.length_drop]
        · rw [List.length_drop]
          omega
      · rw [if_neg h1, if_neg h1]
        by_cases h2 : matchBacktick (stripL (lines.getD i [])) = true
        · rw [if_pos h2, if_pos h2]
          exact ih (i + 1) lines (by omega)
        · rw [if_neg h2, if_neg h2]
          rw [ih (i + 1) lines (by omega)]
    · have hd : lines.drop i = [] := List.drop_eq_nil_of_le (by omega)
      simp only [scanIdxF]
      rw [if_neg hi, hd, scanF_nil]

theorem scanNoElifF_eq : ∀ (fuel : Nat) (ls : List (List Char)),
    scanNoElifF fuel ls = scanF fuel ls := by
  intro fuel
  induction fuel with
  | zero => intro ls; rfl
  | succ f ih =>
    intro ls
    cases ls with
    | nil => rfl
    | cons l rest =>
      simp only [scanNoElifF, scanF]
      by_cases h1 : hasSub logPat (stripL l) = true
      · rw [if_pos h1, if_pos h1, ih]
      · rw [if_neg h1, if_neg h1]
        have h2 : matchBacktick (stripL l) = false := by
          cases hm : matchBacktick (stripL l) with
          | false => rfl
          | true =>
            have hds := matchBacktick_hasSub _ hm
            simp [hds] at h1
        rw [if_neg (by simp [h2]), ih]

/-! ### Claims -/

/-- C3: for every input that contains no occurrence of the substring
`console.log(`, `remove_console_logs` returns the input unchanged (in fact
exactly: the `split('\n')` / `'\n'.join` round trip is the identity). -/
theorem C3_no_log_returns_input (content : List Char)
    (h : hasSub logPat content = false) : remove_console_logs content = content := by
  unfold remove_console_logs
  rw [pySub_fix content h]
  have hlines : ∀ x ∈ splitNl content, hasSub logPat (stripL x) = false := by
    intro x hx
    have hx0 : hasSub logPat x = false := by
      cases hsx : hasSub logPat x with
      | false => rfl
      | true =>
        have hj : hasSub logPat (joinNl (splitNl content)) = true := by
          rw [hasSub_joinNl logPat _ (by decide) (by decide)]
          exact List.any_eq_true.mpr ⟨x, hx, hsx⟩
        rw [joinNl_splitNl] at hj
        rw [h] at hj
        exact absurd hj (by decide)
    cases hsx2 : hasSub logPat (stripL x) with
    | false => rfl
    | true =>
      have hmono := hasSub_stripL_mono logPat x hsx2
      rw [hx0] at hmono
      exact absurd hmono (by decide)
  rw [show scan (splitNl content) = splitNl content from scanF_fix _ hlines _]
  exact joinNl_splitNl content

/-- C3, instantiated: a two-line input with no `console.log(` is returned
verbatim. -/
theorem C3_no_log_returns_input_witness :
    hasSub logPat "const a = 1;\nconst b = 2;".toList = false ∧
    remove_console_logs "const a = 1;\nconst b = 2;".toList =
      "const a = 1;\nconst b = 2;".toList :=
  ⟨by decide, C3_no_log_returns_input _ (by decide)⟩

/-- C4: `remove_console_logs` is idempotent: no kept line contains
`console.log(`, a newline-join cannot create an occurrence across line
boundaries, so a second application finds nothing to do. -/
theorem C4_idempotent (content : List Char) :
    remove_console_logs (remove_console_logs content) = remove_console_logs content := by
  have hkept : ∀ x ∈ scan (splitNl (pySub content)),
      hasSub logPat (stripL x) = false := fun x hx =>
    scanF_kept (splitNl (pySub content)).length (splitNl (pySub content))
      (Nat.le_refl _) x hx
  have hkeptOrig : ∀ x ∈ scan (splitNl (pySub content)),
      hasSub logPat x = false := by
    intro x hx
    cases hsx : hasSub logPat x with
    | false => rfl
    | true =>
      have hstrip := hasSub_stripL_of logPat x (by decide) (by decide) (by decide)
        (by decide) hsx
      rw [hkept x hx] at hstrip
      exact absurd hstrip (by decide)
  have hout : hasSub logPat (joinNl (scan (splitNl (pySub content)))) = false := by
    rw [hasSub_joinNl logPat _ (by decide) (by decide)]
    cases ha : (scan (splitNl (pySub content))).any (fun l => hasSub logPat l) with
    | false => rfl
    | true =>
      obtain ⟨x, hx, hxx⟩ := List.any_eq_true.mp ha
      rw [hkeptOrig x hx] at hxx
      exact absurd hxx (by decide)
  show remove_console_logs (joinNl (scan (splitNl (pySub content)))) =
    joinNl (scan (splitNl (pySub content)))
  unfold remove_console_logs
  rw [pySub_fix _ hout]
  by_cases hMnil : scan (splitNl (pySub content)) = []
  · rw [hMnil]
    decide
  · have hclean : ∀ x ∈ scan (splitNl (pySub content)), '\n' ∉ x := fun x hx =>
      mem_splitNl_no_nl (pySub content) x (scanF_mem _ _ _ hx)
    rw [splitNl_joinNl _ hclean hMnil]
    rw [show scan (scan (splitNl (pySub content))) = scan (splitNl (pySub content)) from
      scanF_fix _ hkept _]

/-- C1 counterexample: on `a\nconsole.log(x);\nb` the line scan identifies
no span containing the line `a` (the scan keeps it), yet the full function
returns `ab`: the regex pass consumed the newlines around the statement
and fused the neighbouring lines, so the untouched line `a` does not
appear in the output. -/
theorem C1_regex_pass_breaks_invariant :
    remove_console_logs "a\nconsole.log(x);\nb".toList = "ab".toList ∧
    "a".toList ∈ scan (splitNl "a\nconsole.log(x);\nb".toList) ∧
    "a".toList ∉ splitNl (remove_console_logs "a\nconsole.log(x);\nb".toList) :=
  ⟨by decide, by decide, by decide⟩

/-- C1 (amended): for every input left unchanged by the initial regex
pass, the function is the join of the line-scan output, and that output is
a sublist of the input's lines — every kept line appears byte-for-byte, in
its original order; the dropped lines are exactly the identified spans and
backtick matches. -/
theorem C1_kept_lines_sublist (content : List Char) (h : pySub content = content) :
    remove_console_logs content = joinNl (scan (splitNl content)) ∧
    (scan (splitNl content)).Sublist (splitNl content) := by
  constructor
  · unfold remove_console_logs
    rw [h]
  · exact scanF_sublist _ _

/-- C1 amended claim instantiated on a concrete regex-noop input. -/
theorem C1_kept_lines_sublist_witness :
    pySub "a\nb".toList = "a\nb".toList ∧
    (remove_console_logs "a\nb".toList = joinNl (scan (splitNl "a\nb".toList)) ∧
      (scan (splitNl "a\nb".toList)).Sublist (splitNl "a\nb".toList)) :=
  ⟨by decide, C1_kept_lines_sublist _ (by decide)⟩

/-- C2 counterexample: omitting the regex pass is observable.  On
`a \nconsole.log(x);\nb` the full function returns `ab` while the
line-scan-only variant returns `a \nb`: the first pass's result is the
very text the line scan splits, not dead computation. -/
theorem C2_regex_pass_observable :
    remove_console_logs "a \nconsole.log(x);\nb".toList = "ab".toList ∧
    scanOnly "a \nconsole.log(x);\nb".toList = "a \nb".toList ∧
    remove_console_logs "a \nconsole.log(x);\nb".toList ≠
      scanOnly "a \nconsole.log(x);\nb".toList :=
  ⟨by decide, by decide, by decide⟩

/-- C2 (amended): omitting the regex pass preserves the result exactly for
those inputs on which the regex substitution is a no-op. -/
theorem C2_scan_only_eq_of_regex_noop (content : List Char)
    (h : pySub content = content) : remove_console_logs content = scanOnly content := by
  unfold remove_console_logs scanOnly
  rw [h]

/-- C2 amended claim instantiated on a concrete regex-noop input. -/
theorem C2_scan_only_eq_of_regex_noop_witness :
    pySub "x\ny".toList = "x\ny".toList ∧
    remove_console_logs "x\ny".toList = scanOnly "x\ny".toList :=
  ⟨by decide, C2_scan_only_eq_of_regex_noop _ (by decide)⟩

/-- C5 counterexample: with first line `console.log("(");` the remainder
of the file is NOT deleted — the regex pass removes that very line (its
first `)` is followed by `;`), so the line scan never sees the unbalanced
count and the rest survives. -/
theorem C5_regex_pass_removes_unbalanced_line :
    remove_console_logs "console.log(\"(\");\nconst a = 1;".toList =
      "const a = 1;".toList ∧
    remove_console_logs "console.log(\"(\");\nconst a = 1;".toList ≠ [] :=
  ⟨by decide, by decide⟩

/-- C5 (amended): for an unbalanced statement the regex pass cannot match
(first `)` not followed by `;`), such as `console.log("()", "(");`, the
span extends to end of file and the whole remainder is silently deleted. -/
theorem C5_unbalanced_swallows_rest :
    remove_console_logs
      "console.log(\"()\", \"(\");\nconst a = 1;\nconst b = 2;".toList = [] := by
  decide

/-- C6: a balanced multi-line call followed by `const y = 1;` leaves only
`const y = 1;` in the output — the three statement lines are removed
together. -/
theorem C6_multiline_span_removed :
    remove_console_logs "console.log(\n  \"value:\", x\n);\nconst y = 1;".toList =
      "const y = 1;".toList := by
  decide

/-- C7 counterexample: on `a\n  console.log("x");\nb` the console line is
removed but the other lines do NOT all appear unchanged: the regex pass
eats the preceding newline and indent, fusing `a` and `b` into `ab`. -/
theorem C7_neighbor_lines_fused :
    remove_console_logs "a\n  console.log(\"x\");\nb".toList = "ab".toList ∧
    "a".toList ∈ splitNl "a\n  console.log(\"x\");\nb".toList ∧
    "a".toList ∉ splitNl (remove_console_logs "a\n  console.log(\"x\");\nb".toList) :=
  ⟨by decide, by decide, by decide⟩

/-- C7 (amended): for the input consisting of exactly the single line
`  console.log("x");`, the output omits that line entirely (and there are
no other lines to preserve). -/
theorem C7_single_line_input_removed :
    remove_console_logs "  console.log(\"x\");".toList = [] := by
  decide

/-- C8 counterexample: for a standalone backtick-form line nested in a
callback, the sibling line `  doWork(x);` of the enclosing block is NOT
kept as a line of the output: the regex pass fuses it onto the
`items.forEach((x) => \x7b` line. -/
theorem C8_sibling_line_not_kept :
    remove_console_logs
        "items.forEach((x) => \x7b\n  console.log(`item: $\x7bx\x7d`);\n  doWork(x);\n\x7d);".toList =
      "items.forEach((x) => \x7b  doWork(x);\n\x7d);".toList ∧
    "  doWork(x);".toList ∈
      splitNl "items.forEach((x) => \x7b\n  console.log(`item: $\x7bx\x7d`);\n  doWork(x);\n\x7d);".toList ∧
    "  doWork(x);".toList ∉
      splitNl (remove_console_logs
        "items.forEach((x) => \x7b\n  console.log(`item: $\x7bx\x7d`);\n  doWork(x);\n\x7d);".toList) :=
  ⟨by decide, by decide, by decide⟩

/-- C8 (amended): the backtick log line is removed (no `console.log(`
remains in the output), but the regex pass also consumes the preceding
newline and indentation, fusing the enclosing block's opening line with
the following sibling line. -/
theorem C8_backtick_line_removed_with_fusion :
    remove_console_logs
        "items.forEach((x) => \x7b\n  console.log(`item: $\x7bx\x7d`);\n  doWork(x);\n\x7d);".toList =
      "items.forEach((x) => \x7b  doWork(x);\n\x7d);".toList ∧
    hasSub logPat (remove_console_logs
        "items.forEach((x) => \x7b\n  console.log(`item: $\x7bx\x7d`);\n  doWork(x);\n\x7d);".toList) =
      false :=
  ⟨by decide, by decide⟩

/-- C9: the line-scan loop terminates and computes a result for every
input: the index-based loop (cursor strictly advancing, inner
continuation loop bounded by the number of lines) run with any iteration
budget of at least the number of lines produces exactly
`remove_console_logs content`. -/
theorem C9_scan_terminates (content : List Char) (fuel : Nat)
    (h : (splitNl (pySub content)).length ≤ fuel) :
    joinNl (scanIdxF fuel 0 (splitNl (pySub content))) = remove_console_logs content := by
  unfold remove_console_logs
  rw [scanIdxF_corr fuel 0 _ (by omega)]
  rw [Nat.sub_zero, List.drop_zero]
  rfl

/-- C9 instantiated: the fueled index loop with budget 5 on a three-line
input agrees with the function. -/
theorem C9_scan_terminates_witness :
    (splitNl (pySub "u\nconsole.log(v);\nw".toList)).length ≤ 5 ∧
    joinNl (scanIdxF 5 0 (splitNl (pySub "u\nconsole.log(v);\nw".toList))) =
      remove_console_logs "u\nconsole.log(v);\nw".toList :=
  ⟨by decide, C9_scan_terminates _ 5 (by decide)⟩

/-- C10: the standalone-backtick `elif` branch is dead code — any line it
could match contains `console.log(` and is consumed by the preceding
branch — so deleting it leaves the function extensionally unchanged. -/
theorem C10_elif_branch_dead (content : List Char) :
    removeNoElif content = remove_console_logs content := by
  unfold removeNoElif remove_console_logs
  rw [scanNoElifF_eq]
  rfl

end Cleanup

